import Mathlib

/-!
Verification of the diff-parsing, git-locator and paginated-aggregation
pipelines of the code-reviewer server (src/server.py and
src/utils/export_comments.py), via a shallow embedding.

Python strings are modelled as `List Char` (`Str`); each Python string
primitive the source uses (`split`, `strip`, `startswith`, `replace`,
`int(...)`) is embedded as an executable structurally-recursive function
with Python's semantics for the ASCII inputs the parser manipulates.
-/

namespace CodeReviewer

/-- Python strings, modelled as lists of characters. -/
abbrev Str := List Char

/-- The character list of a Lean string literal. -/
def str (s : String) : Str := s.data

/-- Python `a.startswith(b)`: mirrors `line.startswith(...)` in server.py. -/
def startsWith (pre l : Str) : Bool := List.isPrefixOf pre l

/-- Python `s.split(sep)` for a single-character separator given by a
predicate: leftmost scan, keeping empty chunks.  Instantiated at `'\n'`
(the line split of `parse_diff_to_files`) and `','` (hunk range split). -/
def splitCharPred (p : Char → Bool) : Str → List Str
  | [] => [[]]
  | c :: cs =>
    if p c then [] :: splitCharPred p cs
    else
      match splitCharPred p cs with
      | r :: rs => (c :: r) :: rs
      | [] => [[c]]

/-- Python `line.split(" b/")`: leftmost non-overlapping occurrences of the
three-character separator, keeping empty chunks. -/
def splitB : Str → List Str
  | [] => [[]]
  | [c] => [[c]]
  | [c, d] => [[c, d]]
  | c :: d :: e :: rest =>
    if c = ' ' ∧ d = 'b' ∧ e = '/' then
      [] :: splitB rest
    else
      match splitB (d :: e :: rest) with
      | r :: rs => (c :: r) :: rs
      | [] => [[c]]

/-- Whether `" b/"` occurs in the string (the separator of `splitB`). -/
def containsB : Str → Bool
  | [] => false
  | [_] => false
  | [_, _] => false
  | c :: d :: e :: rest =>
    if c = ' ' ∧ d = 'b' ∧ e = '/' then true else containsB (d :: e :: rest)

/-- Python `line.split("@@")`: leftmost non-overlapping occurrences of the
two-character separator. -/
def splitAtAt : Str → List Str
  | [] => [[]]
  | [c] => [[c]]
  | c :: d :: rest =>
    if c = '@' ∧ d = '@' then
      [] :: splitAtAt rest
    else
      match splitAtAt (d :: rest) with
      | r :: rs => (c :: r) :: rs
      | [] => [[c]]

/-- Python `s.strip()` (ASCII whitespace). -/
def pyStrip (l : Str) : Str :=
  ((l.dropWhile Char.isWhitespace).reverse.dropWhile Char.isWhitespace).reverse

/-- Python `s.split()` with no argument: split on whitespace runs,
discarding empty chunks. -/
def pySplitWs (l : Str) : List Str :=
  (splitCharPred Char.isWhitespace l).filter (· ≠ [])

/-- Python `s.replace("+", "")`: removes every `'+'`. -/
def removePlus (l : Str) : Str := l.filter (· ≠ '+')

/-- Digit-and-underscore tail of Python `int()` parsing: after the first
digit, single underscores may separate digits. -/
def pyIntGo (acc : Nat) : Str → Option Nat
  | [] => some acc
  | '_' :: c :: rest =>
    if c.isDigit then pyIntGo (acc * 10 + (c.toNat - 48)) rest else none
  | ['_'] => none
  | c :: rest =>
    if c.isDigit then pyIntGo (acc * 10 + (c.toNat - 48)) rest else none

/-- Nonempty digit sequence (with Python's underscore rule). -/
def pyIntDigits : Str → Option Nat
  | [] => none
  | c :: rest => if c.isDigit then pyIntGo (c.toNat - 48) rest else none

/-- Python `int(s)` on ASCII text: strip whitespace, optional sign, digits
(with single underscores between digits); `none` models `ValueError`. -/
def pyInt? (l : Str) : Option Int :=
  match pyStrip l with
  | '-' :: rest => (pyIntDigits rest).map (fun n => -(n : Int))
  | '+' :: rest => (pyIntDigits rest).map (fun n => (n : Int))
  | t => (pyIntDigits t).map (fun n => (n : Int))

/-- One change hunk, as built by `parse_diff_to_files` (server.py 245-251):
the dict `{"start_line": ..., "header": ..., "additions": ..., "deletions":
..., "context": ...}`. -/
structure Hunk where
  start_line : Int
  header : Str
  additions : List Str
  deletions : List Str
  context : List Str
deriving DecidableEq, Repr

/-- The scan state of `parse_diff_to_files`: the insertion-ordered dict
`files`, and the two mutable locals `current_file` and `current_hunk`.

The Python `current_hunk` is an alias of a dict object that also sits
inside `files[k]` at some index `i`; it is embedded as that address
`(k, i)`.  When `files[k]` is re-assigned to a fresh list (a repeated
`diff --git` path), the Python alias keeps pointing at the orphaned old
object, whose later mutations are invisible in `files`; the embedding
drops the pointer at that moment, which is observationally identical. -/
structure ParseState where
  files : List (Str × List Hunk)
  current_file : Option Str
  current_hunk : Option (Str × Nat)
deriving DecidableEq, Repr

/-- Whether the dict has the key (Python `k in files`). -/
def hasKey (fs : List (Str × List Hunk)) (k : Str) : Bool :=
  fs.any (fun p => decide (p.1 = k))

/-- Python `files[k] = []`: inserts at the end when the key is new,
otherwise resets the value in place keeping the key's position. -/
def registerFile (fs : List (Str × List Hunk)) (k : Str) : List (Str × List Hunk) :=
  if hasKey fs k then fs.map (fun p => if p.1 = k then (k, []) else p)
  else fs ++ [(k, [])]

/-- Python `files[k].append(h)`. -/
def appendHunkTo (fs : List (Str × List Hunk)) (k : Str) (h : Hunk) :
    List (Str × List Hunk) :=
  fs.map (fun p => if p.1 = k then (p.1, p.2 ++ [h]) else p)

/-- Length of `files[k]` (0 when absent; used only when present). -/
def lookupLen (fs : List (Str × List Hunk)) (k : Str) : Nat :=
  (((fs.find? (fun p => decide (p.1 = k))).map (fun p => p.2.length))).getD 0

/-- In-place update of the element at an index. -/
def listModify : List α → Nat → (α → α) → List α
  | [], _, _ => []
  | a :: as, 0, f => f a :: as
  | a :: as, n + 1, f => a :: listModify as n f

/-- Mutation of the hunk object that `current_hunk` aliases: update index
`i` of `files[k]`. -/
def modifyHunk (fs : List (Str × List Hunk)) (k : Str) (i : Nat) (f : Hunk → Hunk) :
    List (Str × List Hunk) :=
  fs.map (fun p => if p.1 = k then (p.1, listModify p.2 i f) else p)

/-- Python truthiness of `current_file` (`None` and `""` are falsy). -/
def truthyFile : Option Str → Bool
  | none => false
  | some f => !f.isEmpty

/-- The hunk-header computation of server.py 238-243: `line.split("@@")[1]
.strip()`, whitespace-split, `parts[1] if len(parts) > 1 else "+0"`, then
`int(new_range.split(",")[0].replace("+", ""))`.  Returns `none` when the
Python code raises `ValueError` or `IndexError` (caught at line 253). -/
def hunkNewStart? (line : Str) : Option Int :=
  match splitAtAt line with
  | _ :: info :: _ =>
    let parts := pySplitWs (pyStrip info)
    let new_range := parts.getD 1 (str "+0")
    pyInt? (removePlus ((splitCharPred (· == ',') new_range).headD []))
  | _ => none

/-- The body-line classification of server.py 255-261, applied to the hunk
object `current_hunk` aliases. -/
def classifyLine (h : Hunk) (line : Str) : Hunk :=
  if startsWith (str "+") line && !startsWith (str "+++") line then
    { h with additions := h.additions ++ [line.drop 1] }
  else if startsWith (str "-") line && !startsWith (str "---") line then
    { h with deletions := h.deletions ++ [line.drop 1] }
  else if !startsWith (str "\\") line then
    { h with context := h.context ++ [line] }
  else h

/-- One iteration of the `for line in diff_output.split("\n")` loop of
`parse_diff_to_files` (server.py 227-261). -/
def processLine (st : ParseState) (line : Str) : ParseState :=
  if startsWith (str "diff --git") line then
    let parts := splitB line
    if 2 ≤ parts.length then
      let f := (parts.getLast?).getD []
      { files := registerFile st.files f
        current_file := some f
        current_hunk :=
          match st.current_hunk with
          | some (k, i) => if k = f then none else some (k, i)
          | none => none }
    else st
  else if startsWith (str "@@") line && truthyFile st.current_file then
    match st.current_file with
    | some cf =>
      match hunkNewStart? line with
      | some n =>
        { files := appendHunkTo st.files cf ⟨n, line, [], [], []⟩
          current_file := st.current_file
          current_hunk := some (cf, lookupLen st.files cf) }
      | none => st
    | none => st
  else
    match st.current_hunk with
    | some (k, i) =>
      { st with files := modifyHunk st.files k i (fun h => classifyLine h line) }
    | none => st

/-- Initial scan state (server.py 223-225). -/
def initState : ParseState := ⟨[], none, none⟩

/-- The scan over a list of lines. -/
def parseLines (ls : List Str) : ParseState := ls.foldl processLine initState

/-- `parse_diff_to_files` (server.py 214-263): split the input on `"\n"`,
run the scan, return the ordered file-to-hunks mapping. -/
def parse_diff_to_files (diff_output : Str) : List (Str × List Hunk) :=
  (parseLines (splitCharPred (· == '\n') diff_output)).files

/-! ## Repository locator (server.py 159-211)

`run_git_command` spawns a process; its outcome is embedded as a
`ProcessResult` value taken as input, so `get_repo_root` /
`get_current_branch` are functions of the result of the one git command
they issue. -/

/-- The `(stdout, stderr, returncode)` triple of `run_git_command`. -/
structure ProcessResult where
  stdout : String
  stderr : String
  returncode : Int
deriving DecidableEq, Repr

/-- Python `s.strip()` on a Lean `String` (via the character list). -/
def stripStr (s : String) : String := ⟨pyStrip s.data⟩

/-- `get_repo_root` (server.py 184-196) as a function of the result of
`git rev-parse --show-toplevel`: the stripped stdout on exit 0, else None. -/
def get_repo_root (r : ProcessResult) : Option String :=
  if r.returncode = 0 then some (stripStr r.stdout) else none

/-- `get_current_branch` (server.py 199-211) as a function of the result
of `git branch --show-current`: the stripped stdout on exit 0, else None. -/
def get_current_branch (r : ProcessResult) : Option String :=
  if r.returncode = 0 then some (stripStr r.stdout) else none

/-- The result of `git branch --show-current` on a detached HEAD: the
command succeeds (exit code 0) and prints nothing. -/
def detachedHeadResult : ProcessResult := ⟨"", "", 0⟩

/-! ## Paginated aggregator (export_comments.py 59-102)

`fetch_paginated` issues `session.get` per page; the session's transport
retry behaviour lives in the `urllib3` library, configured by
`create_session` with `Retry(total=3, backoff_factor=1,
status_forcelist=[429, 500, 502, 503, 504], allowed_methods=["GET"])`.
The remote is embedded as a function from URL and per-call attempt index
to a raw response. -/

/-- One page body: the `"values"` collection and the `"next"` cursor. -/
structure Page (α : Type) where
  values : List α
  next : Option String
deriving DecidableEq, Repr

/-- A raw HTTP response: status code and (JSON) page body. -/
structure HttpResp (α : Type) where
  status : Nat
  page : Page α
deriving DecidableEq, Repr

/-- The `status_forcelist` of `create_session` (export_comments.py 68). -/
def forcelist : List Nat := [429, 500, 502, 503, 504]

/-- Errors surfaced by a page fetch.  `fuelOut` is a modelling artifact:
the Python `while url:` loop simply never terminates on an infinite
cursor chain, which a total function cannot express. -/
inductive ApiErr
  | retriesExceeded (status : Nat)
  | httpStatus (status : Nat)
  | fuelOut
deriving DecidableEq, Repr

/-- Modelled from the spec: the retry loop that `urllib3`'s
`Retry(total=3, status_forcelist=...)` performs inside one
`session.get` call (the library itself is outside this repository).  A
response whose status is in the forcelist is retried until the budget of
3 retries is exhausted, at which point the transport error surfaces;
the first response outside the forcelist is returned together with the
index of the attempt that produced it. -/
def sessionGetAux (responses : Nat → HttpResp α) : Nat → Nat → Except ApiErr (HttpResp α × Nat)
  | budget, attempt =>
    let r := responses attempt
    if r.status ∈ forcelist then
      match budget with
      | 0 => .error (.retriesExceeded r.status)
      | b + 1 => sessionGetAux responses b (attempt + 1)
    else .ok (r, attempt)

/-- Modelled from the spec: `session.get(url)` followed by
`response.raise_for_status()` (export_comments.py 92-93): retry per the
configured policy, then raise on a 4xx/5xx status.  On success returns
the page and the number of retries that preceded it. -/
def sessionGet (responses : Nat → HttpResp α) : Except ApiErr (Page α × Nat) :=
  match sessionGetAux responses 3 0 with
  | .error e => .error e
  | .ok (r, attempts) =>
    if 400 ≤ r.status then .error (.httpStatus r.status) else .ok (r.page, attempts)

/-- Backoff slept before the k-th retry (k ≥ 1) with `backoff_factor=1`:
2^(k-1) seconds. -/
def backoffDelay (k : Nat) : Nat := 2 ^ (k - 1)

/-- The sequence of backoff delays over `n` retries. -/
def delaysFor (n : Nat) : List Nat := (List.range n).map (fun i => backoffDelay (i + 1))

/-- Python truthiness of the `url` loop variable (`None` and `""` falsy). -/
def urlTruthy : Option String → Bool
  | none => false
  | some u => u ≠ ""

/-- The `while url:` accumulation loop of `fetch_paginated`
(export_comments.py 84-102): get the page, extend `results` with its
`"values"`, follow `"next"`.  `server` maps a URL to the response
sequence it serves to the successive attempts of one `session.get`
call; `fuel` bounds the cursor chain. -/
def fetch_paginated (server : String → Nat → HttpResp α) :
    Nat → Option String → List α → Except ApiErr (List α)
  | fuel, url, results =>
    if urlTruthy url then
      match url, fuel with
      | some u, fuel + 1 =>
        match sessionGet (server u) with
        | .error e => .error e
        | .ok (page, _) => fetch_paginated server fuel page.next (results ++ page.values)
      | _, 0 => .error .fuelOut
      | none, _ => .ok results
    else .ok results

/-- `fetch_paginated` from a start URL with an empty accumulator. -/
def fetchAll (server : String → Nat → HttpResp α) (fuel : Nat) (start : String) :
    Except ApiErr (List α) :=
  fetch_paginated server fuel (some start) []

/-! ## Comment export (export_comments.py 119-187) -/

/-- A pull-request record, restricted to the fields the export loop
reads (`pr["id"]`, `pr["title"]`). -/
structure BBPr where
  id : Nat
  title : String
deriving DecidableEq, Repr

/-- One comment as returned by the comments endpoint, restricted to the
fields the export loop reads; `Option` fields model absent JSON keys
(the `.get(..., default)` chains). -/
structure BBComment where
  user_account_id : Option String
  id : Option Nat
  content_raw : Option String
  inline_path : Option String
  inline_to : Option Nat
  created_on : Option String
  updated_on : Option String
deriving DecidableEq, Repr

/-- The flattened record appended to `all_comments`
(export_comments.py 163-173). -/
structure CommentRecord where
  pr_id : Nat
  pr_title : String
  pr_url : String
  comment_id : Option Nat
  content : String
  file_path : String
  line : Option Nat
  created_on : String
  updated_on : String
deriving DecidableEq, Repr

/-- Builds one `CommentRecord` from a PR and a comment, with the
defaults of the `.get` chains (export_comments.py 163-173). -/
def toRecord (workspace repo_slug : String) (pr : BBPr) (c : BBComment) : CommentRecord :=
  { pr_id := pr.id
    pr_title := pr.title
    pr_url := "https://bitbucket.org/" ++ workspace ++ "/" ++ repo_slug ++ "/pull-requests/"
                ++ toString pr.id
    comment_id := c.id
    content := c.content_raw.getD ""
    file_path := c.inline_path.getD "General comment"
    line := c.inline_to
    created_on := c.created_on.getD ""
    updated_on := c.updated_on.getD "" }

/-- The author filter of export_comments.py 157-161: with a truthy
`account_id`, keep only comments whose (defaulted) author id equals it;
`None` or `""` keeps everything. -/
def keepComment (account_id : Option String) (c : BBComment) : Bool :=
  match account_id with
  | none => true
  | some a => if a = "" then true else c.user_account_id.getD "" == a

/-- The record-collection loops of `export_comments_to_csv`
(export_comments.py 139-176), with the remote listing given as inputs:
for each PR in listing order, for each of its comments in page order,
skip non-matching authors and append the flattened record.  Progress
printing, the inter-PR sleep and the CSV write are I/O around this
accumulation. -/
def export_comments_records (prs : List BBPr) (commentsOf : Nat → List BBComment)
    (workspace repo_slug : String) (account_id : Option String) : List CommentRecord :=
  prs.foldl
    (fun acc pr =>
      (commentsOf pr.id).foldl
        (fun acc2 c =>
          if keepComment account_id c then acc2 ++ [toRecord workspace repo_slug pr c]
          else acc2)
        acc)
    []

/-! ## Exception-tracking variant of the parser (for totality)

The only operations of `parse_diff_to_files` that can raise in Python
are `line.split("@@")[1]` (IndexError), `int(...)` (ValueError) — both
inside the `try` of lines 237-254 whose `except (ValueError, IndexError)`
passes — and the dict subscript `files[current_file]` (KeyError, not
caught).  This variant makes those three explicit. -/

/-- The exceptions the scan body can raise. -/
inductive PyErr
  | valueError
  | indexError
  | keyError
deriving DecidableEq, Repr

/-- The hunk-header computation with its possible exceptions explicit:
`IndexError` from `split("@@")[1]`, `ValueError` from `int(...)`. -/
def hunkNewStartExc (line : Str) : Except PyErr Int :=
  match splitAtAt line with
  | _ :: info :: _ =>
    let parts := pySplitWs (pyStrip info)
    let new_range := parts.getD 1 (str "+0")
    match pyInt? (removePlus ((splitCharPred (· == ',') new_range).headD [])) with
    | some n => .ok n
    | none => .error .valueError
  | _ => .error .indexError

/-- `processLine` with exceptions explicit: the `except (ValueError,
IndexError): pass` of line 253 turns those two into `pass`; a KeyError
from `files[current_file].append(...)` would propagate. -/
def processLineExc (st : ParseState) (line : Str) : Except PyErr ParseState :=
  if startsWith (str "diff --git") line then
    .ok (processLine st line)
  else if startsWith (str "@@") line && truthyFile st.current_file then
    match st.current_file with
    | some cf =>
      match hunkNewStartExc line with
      | .ok n =>
        if hasKey st.files cf then
          .ok { files := appendHunkTo st.files cf ⟨n, line, [], [], []⟩
                current_file := st.current_file
                current_hunk := some (cf, lookupLen st.files cf) }
        else .error .keyError
      | .error e =>
        if e = .valueError ∨ e = .indexError then .ok st else .error e
    | none => .ok st
  else
    .ok (processLine st line)

/-- The scan loop with exception propagation: stops at the first
uncaught exception. -/
def foldExc : ParseState → List Str → Except PyErr ParseState
  | st, [] => .ok st
  | st, l :: ls =>
    match processLineExc st l with
    | .ok stNext => foldExc stNext ls
    | .error e => .error e

/-- The whole scan with exceptions explicit. -/
def parse_diff_to_files_exc (diff_output : Str) : Except PyErr (List (Str × List Hunk)) :=
  (foldExc ⟨[], none, none⟩ (splitCharPred (· == '\n') diff_output)).map (·.files)

/-! ## Generator of well-formed unified diffs

An abstract diff (files, hunks, classified body lines) together with a
printer producing the exact text git emits for it.  `parse` is then
related to the abstract diff it was printed from. -/

/-- One body line of a hunk with its classification. -/
inductive BodyLine
  | add (s : Str)
  | del (s : Str)
  | ctx (s : Str)
deriving DecidableEq, Repr

/-- Prints a body line with its unified-diff prefix character. -/
def printBodyLine : BodyLine → Str
  | .add s => '+' :: s
  | .del s => '-' :: s
  | .ctx s => ' ' :: s

/-- An abstract hunk: its header line and its classified body lines. -/
structure GHunk where
  header : Str
  body : List BodyLine
deriving DecidableEq, Repr

/-- An abstract file section: path and hunks. -/
structure GFile where
  path : Str
  hunks : List GHunk
deriving DecidableEq, Repr

/-- The lines of a printed hunk. -/
def printGHunk (h : GHunk) : List Str := h.header :: h.body.map printBodyLine

/-- The lines of a printed file section: the `diff --git a/p b/p`
marker, then the hunks. -/
def printGFile (f : GFile) : List Str :=
  (str "diff --git a/" ++ f.path ++ str " b/" ++ f.path) :: (f.hunks.map printGHunk).flatten

/-- The lines of a printed diff. -/
def printDiff (d : List GFile) : List Str := (d.map printGFile).flatten

/-- Joins lines with newlines into diff text. -/
def renderLines (ls : List Str) : Str := List.intercalate ['\n'] ls

/-- Well-formedness of one body line: no embedded newline, and the
stripped text of an added/removed line must not begin with `++`/`--`
(otherwise its printed form would collide with the `+++`/`---` file
header exclusion of lines 256-258). -/
def wfBody : BodyLine → Bool
  | .add s => !startsWith (str "++") s && !s.contains '\n'
  | .del s => !startsWith (str "--") s && !s.contains '\n'
  | .ctx s => !s.contains '\n'

/-- Well-formedness of a hunk: the header is a `@@` line the parser's
header computation accepts, has no embedded newline, and every body
line is well-formed. -/
def wfGHunk (h : GHunk) : Bool :=
  startsWith (str "@@") h.header && (hunkNewStart? h.header).isSome &&
    !h.header.contains '\n' && h.body.all wfBody

/-- Well-formedness of a file section: nonempty path with no newline and
no embedded `" b/"`, and well-formed hunks. -/
def wfGFile (f : GFile) : Bool :=
  !f.path.isEmpty && !f.path.contains '\n' && !containsB f.path && f.hunks.all wfGHunk

/-- Well-formedness of a diff: well-formed sections with pairwise
distinct paths. -/
def wfDiff (d : List GFile) : Bool :=
  d.all wfGFile && decide (d.map (·.path)).Nodup

/-- The additions the parser extracts from a body (prefix stripped). -/
def hunkAdds (b : List BodyLine) : List Str :=
  b.filterMap fun x => match x with | .add s => some s | _ => none

/-- The deletions the parser extracts from a body (prefix stripped). -/
def hunkDels (b : List BodyLine) : List Str :=
  b.filterMap fun x => match x with | .del s => some s | _ => none

/-- The context lines the parser extracts from a body (kept verbatim,
including the leading space). -/
def hunkCtxs (b : List BodyLine) : List Str :=
  b.filterMap fun x => match x with | .ctx s => some (' ' :: s) | _ => none

/-- The `Hunk` the parser builds for a printed abstract hunk. -/
def expectedHunk (h : GHunk) : Hunk :=
  ⟨(hunkNewStart? h.header).getD 0, h.header, hunkAdds h.body, hunkDels h.body, hunkCtxs h.body⟩

/-- The file-to-hunks mapping the parser builds for a printed diff. -/
def expectedFiles (d : List GFile) : List (Str × List Hunk) :=
  d.map (fun f => (f.path, f.hunks.map expectedHunk))

/-- The context lines of a body without the restored leading space. -/
def hunkCtxRaw (b : List BodyLine) : List Str :=
  b.filterMap fun x => match x with | .ctx s => some s | _ => none

/-- A hunk body is grouped when it lists all additions, then all
deletions, then all context lines, in that order. -/
def grouped (b : List BodyLine) : Bool :=
  decide (b = (hunkAdds b).map BodyLine.add ++ (hunkDels b).map BodyLine.del
    ++ (hunkCtxRaw b).map BodyLine.ctx)

/-- Every hunk body of the diff is grouped. -/
def groupedHunks (d : List GFile) : Bool :=
  d.all (fun f => f.hunks.all (fun g => grouped g.body))

/-- Reconstruction of a hunk's text lines from its parsed fields: the
header, then the additions with their `+` restored, the deletions with
their `-` restored, and the context lines verbatim. -/
def reconstructHunk (h : Hunk) : List Str :=
  h.header :: (h.additions.map (fun s => '+' :: s)
    ++ h.deletions.map (fun s => '-' :: s) ++ h.context)

/-- The 3-page listing of the spec's scenario: page 1 always succeeds,
page 2 serves 503 to its first two attempts and then succeeds, page 3
always succeeds. -/
def threePageServer (vs1 vs2 vs3 : List Nat) : String → Nat → HttpResp Nat := fun u k =>
  if u = "p1" then ⟨200, vs1, some "p2"⟩
  else if u = "p2" then
    (if k < 2 then ⟨503, [], none⟩ else ⟨200, vs2, some "p3"⟩)
  else ⟨200, vs3, none⟩

/-- A listing whose second page fails with 503 on every attempt. -/
def failingServer : String → Nat → HttpResp Nat := fun u _ =>
  if u = "p1" then ⟨200, [7], some "p2"⟩ else ⟨503, [], none⟩

/-- A listing whose single page answers 501 first and would succeed on a
retry that never happens (501 is 5xx but not in the forcelist). -/
def server501 : String → Nat → HttpResp Nat := fun _ k =>
  if k = 0 then ⟨501, [], none⟩ else ⟨200, [7], none⟩

/-- The invariant that makes the uncaught `KeyError` impossible: the
current file, when set, is a key of `files`. -/
def InvCF (st : ParseState) : Prop :=
  ∀ f, st.current_file = some f → hasKey st.files f = true


/-! ## Splitting lemmas -/

theorem splitCharPred_ne_nil (p : Char → Bool) (l : Str) : splitCharPred p l ≠ [] := by
  induction l with
  | nil => simp [splitCharPred]
  | cons c cs ih =>
    simp only [splitCharPred]
    split
    · simp
    · split <;> simp

theorem splitCharPred_no_sep (p : Char → Bool) (l : Str) (h : ∀ c ∈ l, p c = false) :
    splitCharPred p l = [l] := by
  induction l with
  | nil => rfl
  | cons c cs ih =>
    have hc : p c = false := h c (by simp)
    have ih' := ih (fun d hd => h d (by simp [hd]))
    simp only [splitCharPred, hc, Bool.false_eq_true, if_false, ih']

theorem splitCharPred_append_sep (p : Char → Bool) (l rest : Str) (c : Char)
    (h : ∀ d ∈ l, p d = false) (hc : p c = true) :
    splitCharPred p (l ++ c :: rest) = l :: splitCharPred p rest := by
  induction l with
  | nil => simp [splitCharPred, hc]
  | cons a as ih =>
    have ha : p a = false := h a (by simp)
    have ih' := ih (fun d hd => h d (by simp [hd]))
    simp only [List.cons_append, splitCharPred, ha, Bool.false_eq_true, if_false,
      List.append_eq, ih']

theorem splitNl_renderLines (ls : List Str) (hne : ls ≠ [])
    (h : ∀ l ∈ ls, ∀ c ∈ l, (c == '\n') = false) :
    splitCharPred (· == '\n') (renderLines ls) = ls := by
  induction ls with
  | nil => exact absurd rfl hne
  | cons l rest ih =>
    cases rest with
    | nil =>
      have : renderLines [l] = l := by simp [renderLines, List.intercalate]
      rw [this]
      exact splitCharPred_no_sep _ l (h l (by simp))
    | cons m ms =>
      have hjoin : renderLines (l :: m :: ms) = l ++ '\n' :: renderLines (m :: ms) := by
        simp [renderLines, List.intercalate, List.intersperse]
      rw [hjoin, splitCharPred_append_sep _ _ _ _ (h l (by simp)) (by decide)]
      rw [ih (by simp) (fun x hx => h x (by simp [hx]))]

theorem containsB_cons3 (c d e : Char) (r : Str) (h : ¬(c = ' ' ∧ d = 'b' ∧ e = '/')) :
    containsB (c :: d :: e :: r) = containsB (d :: e :: r) := by
  simp only [containsB, h, if_false]

theorem containsB_cons_ne (c : Char) (l : Str) (hc : c ≠ ' ') :
    containsB (c :: l) = containsB l := by
  match l with
  | [] => rfl
  | [d] => rfl
  | d :: e :: r =>
    rw [containsB_cons3]
    intro hx
    exact hc hx.1

theorem splitB_ne_nil (l : Str) : splitB l ≠ [] := by
  match l with
  | [] => simp [splitB]
  | [c] => simp [splitB]
  | [c, d] => simp [splitB]
  | c :: d :: e :: rest =>
    simp only [splitB]
    split
    · simp
    · split <;> simp

theorem splitB_no_occ (l : Str) (h : containsB l = false) : splitB l = [l] := by
  match l with
  | [] => rfl
  | [c] => rfl
  | [c, d] => rfl
  | c :: d :: e :: rest =>
    simp only [containsB] at h
    simp only [splitB]
    split
    · rename_i hx
      rw [if_pos hx] at h
      exact absurd h (by simp)
    · rename_i hx
      rw [if_neg hx] at h
      rw [splitB_no_occ (d :: e :: rest) h]

theorem splitB_cons3 (c d e : Char) (r : Str) :
    splitB (c :: d :: e :: r) =
      if c = ' ' ∧ d = 'b' ∧ e = '/' then [] :: splitB r
      else
        match splitB (d :: e :: r) with
        | rr :: rs => (c :: rr) :: rs
        | [] => [[c]] := rfl

theorem splitB_base (t : Str) (ht : containsB t = false) :
    splitB (' ' :: 'b' :: '/' :: t) = [[], t] := by
  rw [show splitB (' ' :: 'b' :: '/' :: t) = [] :: splitB t from rfl, splitB_no_occ t ht]

theorem getLast_len_cons (t : Str) (c : Char) (r : Str) (rs : List Str)
    (h1 : (r :: rs).getLast? = some t) (h2 : 2 ≤ (r :: rs).length) :
    ((c :: r) :: rs).getLast? = some t ∧ 2 ≤ ((c :: r) :: rs).length := by
  match rs with
  | [] => simp at h2
  | r2 :: rs2 =>
    refine ⟨?_, by simp⟩
    rw [List.getLast?_cons_cons] at h1 ⊢
    exact h1

theorem splitB_last_occ_aux (t : Str) (ht : containsB t = false) :
    ∀ (n : Nat) (u : Str), u.length ≤ n →
      (splitB (u ++ ' ' :: 'b' :: '/' :: t)).getLast? = some t ∧
        2 ≤ (splitB (u ++ ' ' :: 'b' :: '/' :: t)).length := by
  intro n
  induction n with
  | zero =>
    intro u hu
    have hu0 : u = [] := List.length_eq_zero.mp (Nat.le_zero.mp hu)
    subst hu0
    rw [List.nil_append, splitB_base t ht]
    simp
  | succ n ih =>
    intro u hu
    match u with
    | [] =>
      rw [List.nil_append, splitB_base t ht]
      simp
    | c :: u' =>
      have hlen : u'.length ≤ n := Nat.le_of_succ_le_succ hu
      match u' with
      | [] =>
        rw [List.cons_append, List.nil_append, splitB_cons3,
          if_neg (show ¬(c = ' ' ∧ ' ' = 'b' ∧ 'b' = '/') by simp),
          splitB_base t ht]
        simp
      | [x] =>
        rw [List.cons_append, List.cons_append, List.nil_append, splitB_cons3,
          if_neg (show ¬(c = ' ' ∧ x = 'b' ∧ ' ' = '/') by simp)]
        have h0 := ih [x] (by simpa using hlen)
        simp only [List.cons_append, List.nil_append] at h0
        match hs : splitB (x :: ' ' :: 'b' :: '/' :: t) with
        | [] => exact absurd hs (splitB_ne_nil _)
        | r :: rs =>
          rw [hs] at h0
          exact getLast_len_cons t c r rs h0.1 h0.2
      | x :: y :: u'' =>
        simp only [List.cons_append]
        rw [splitB_cons3]
        by_cases hcond : c = ' ' ∧ x = 'b' ∧ y = '/'
        · rw [if_pos hcond]
          have h0 := ih u'' (by simp at hlen; omega)
          match hs : splitB (u'' ++ ' ' :: 'b' :: '/' :: t) with
          | [] => exact absurd hs (splitB_ne_nil _)
          | r :: rs =>
            rw [hs] at h0
            obtain ⟨h1, h2⟩ := h0
            match rs with
            | [] => simp at h2
            | r2 :: rs2 =>
              refine ⟨?_, by simp⟩
              rw [List.getLast?_cons_cons]
              rw [List.getLast?_cons_cons] at h1
              exact h1
        · rw [if_neg hcond]
          have h0 := ih (x :: y :: u'') hlen
          simp only [List.cons_append] at h0
          match hs : splitB (x :: y :: (u'' ++ ' ' :: 'b' :: '/' :: t)) with
          | [] => exact absurd hs (splitB_ne_nil _)
          | r :: rs =>
            rw [hs] at h0
            exact getLast_len_cons t c r rs h0.1 h0.2

theorem splitB_last_occ (u t : Str) (ht : containsB t = false) :
    (splitB (u ++ ' ' :: 'b' :: '/' :: t)).getLast? = some t ∧
      2 ≤ (splitB (u ++ ' ' :: 'b' :: '/' :: t)).length :=
  splitB_last_occ_aux t ht u.length u (Nat.le_refl _)

/-! ## Character-level facts about line shapes -/

theorem startsWith_atat_shape (l : Str) (h : startsWith (str "@@") l = true) :
    ∃ t, l = '@' :: '@' :: t := by
  have h2 : List.isPrefixOf ['@', '@'] l = true := h
  match l with
  | [] => exact absurd h2 (by decide)
  | [c] => simp [List.isPrefixOf] at h2
  | c :: d :: t =>
    simp only [List.isPrefixOf, Bool.and_eq_true, beq_iff_eq] at h2
    exact ⟨t, by rw [← h2.1, ← h2.2.1]⟩

theorem containsB_marker (p : Str) (hp : containsB p = false) :
    containsB (str "diff --git a/" ++ p) = false := by
  simp only [str]
  show containsB ('d' :: 'i' :: 'f' :: 'f' :: ' ' :: '-' :: '-' :: 'g' :: 'i' :: 't' ::
    ' ' :: 'a' :: '/' :: p) = false
  rw [containsB_cons_ne 'd' _ (by decide), containsB_cons_ne 'i' _ (by decide),
    containsB_cons_ne 'f' _ (by decide), containsB_cons_ne 'f' _ (by decide),
    containsB_cons3 ' ' '-' '-' _ (by decide), containsB_cons_ne '-' _ (by decide),
    containsB_cons_ne '-' _ (by decide), containsB_cons_ne 'g' _ (by decide),
    containsB_cons_ne 'i' _ (by decide), containsB_cons_ne 't' _ (by decide),
    containsB_cons3 ' ' 'a' '/' _ (by decide), containsB_cons_ne 'a' _ (by decide),
    containsB_cons_ne '/' _ (by decide)]
  exact hp

/-! ## Dict-operation lemmas -/

theorem hasKey_iff (fs : List (Str × List Hunk)) (k : Str) :
    hasKey fs k = true ↔ ∃ p ∈ fs, p.1 = k := by
  simp [hasKey, List.any_eq_true]

theorem hasKey_false_forall (fs : List (Str × List Hunk)) (k : Str)
    (h : hasKey fs k = false) : ∀ p ∈ fs, p.1 ≠ k := by
  intro p hp
  intro hk
  rw [Bool.eq_false_iff] at h
  exact h ((hasKey_iff fs k).mpr ⟨p, hp, hk⟩)

theorem hasKey_append (fs gs : List (Str × List Hunk)) (k : Str) :
    hasKey (fs ++ gs) k = (hasKey fs k || hasKey gs k) := by
  simp [hasKey, List.any_append]

theorem registerFile_fresh (fs : List (Str × List Hunk)) (k : Str)
    (h : hasKey fs k = false) : registerFile fs k = fs ++ [(k, [])] := by
  rw [registerFile, h]
  simp

theorem map_keep_of_fresh {f : Str × List Hunk → Str × List Hunk}
    (fs : List (Str × List Hunk)) (k : Str) (h : hasKey fs k = false)
    (hf : ∀ p, p.1 ≠ k → f p = p) : fs.map f = fs := by
  have := hasKey_false_forall fs k h
  calc fs.map f = fs.map id := List.map_congr_left (fun p hp => hf p (this p hp))
  _ = fs := List.map_id fs

theorem appendHunkTo_last (fs : List (Str × List Hunk)) (k : Str) (hs : List Hunk)
    (x : Hunk) (h : hasKey fs k = false) :
    appendHunkTo (fs ++ [(k, hs)]) k x = fs ++ [(k, hs ++ [x])] := by
  rw [appendHunkTo, List.map_append]
  congr 1
  · exact map_keep_of_fresh fs k h (fun p hp => by simp [hp])
  · simp

theorem modifyHunk_last (fs : List (Str × List Hunk)) (k : Str) (hs : List Hunk)
    (i : Nat) (f : Hunk → Hunk) (h : hasKey fs k = false) :
    modifyHunk (fs ++ [(k, hs)]) k i f = fs ++ [(k, listModify hs i f)] := by
  rw [modifyHunk, List.map_append]
  congr 1
  · exact map_keep_of_fresh fs k h (fun p hp => by simp [hp])
  · simp

theorem lookupLen_last (fs : List (Str × List Hunk)) (k : Str) (hs : List Hunk)
    (h : hasKey fs k = false) : lookupLen (fs ++ [(k, hs)]) k = hs.length := by
  rw [lookupLen, List.find?_append]
  have hnone : fs.find? (fun p => decide (p.1 = k)) = none := by
    rw [List.find?_eq_none]
    intro p hp
    simpa using hasKey_false_forall fs k h p hp
  rw [hnone]
  simp

theorem listModify_append_len (hs : List Hunk) (x : Hunk) (f : Hunk → Hunk) :
    listModify (hs ++ [x]) hs.length f = hs ++ [f x] := by
  induction hs with
  | nil => rfl
  | cons a as ih => simp only [List.cons_append, List.length_cons, listModify, List.append_eq, ih]

/-! ## Evaluation of `processLine` on the line shapes of a diff -/

theorem sw_marker (x : Str) :
    startsWith (str "diff --git") (str "diff --git a/" ++ x) = true := rfl

theorem sw_marker4 (p q : Str) :
    startsWith (str "diff --git") (str "diff --git a/" ++ p ++ str " b/" ++ q) = true := rfl

theorem sw_dg_at (t : Str) : startsWith (str "diff --git") ('@' :: t) = false := rfl

theorem sw_dg_plus (s : Str) : startsWith (str "diff --git") ('+' :: s) = false := rfl

theorem sw_dg_minus (s : Str) : startsWith (str "diff --git") ('-' :: s) = false := rfl

theorem sw_dg_space (s : Str) : startsWith (str "diff --git") (' ' :: s) = false := rfl

theorem sw_at_plus (s : Str) : startsWith (str "@@") ('+' :: s) = false := rfl

theorem sw_at_minus (s : Str) : startsWith (str "@@") ('-' :: s) = false := rfl

theorem sw_at_space (s : Str) : startsWith (str "@@") (' ' :: s) = false := rfl

theorem sw_at_at (t : Str) : startsWith (str "@@") ('@' :: '@' :: t) = true := by
  simp [startsWith, List.isPrefixOf]

theorem processLine_marker (st : ParseState) (line t : Str)
    (hd : startsWith (str "diff --git") line = true)
    (hlast : (splitB line).getLast? = some t)
    (hlen : 2 ≤ (splitB line).length) :
    processLine st line =
      { files := registerFile st.files t
        current_file := some t
        current_hunk :=
          match st.current_hunk with
          | some (k, i) => if k = t then none else some (k, i)
          | none => none } := by
  rw [processLine, if_pos hd]
  simp only [if_pos hlen, hlast, Option.getD_some]

theorem processLine_marker_noB (st : ParseState) (line : Str)
    (hd : startsWith (str "diff --git") line = true)
    (hlen : ¬ 2 ≤ (splitB line).length) :
    processLine st line = st := by
  rw [processLine, if_pos hd]
  simp only [if_neg hlen]

theorem processLine_header (st : ParseState) (line cf : Str) (n : Int)
    (hsh : startsWith (str "@@") line = true)
    (hcf : st.current_file = some cf) (hne : cf.isEmpty = false)
    (hn : hunkNewStart? line = some n) :
    processLine st line =
      { files := appendHunkTo st.files cf ⟨n, line, [], [], []⟩
        current_file := some cf
        current_hunk := some (cf, lookupLen st.files cf) } := by
  obtain ⟨t, rfl⟩ := startsWith_atat_shape line hsh
  rw [processLine, if_neg (by rw [sw_dg_at]; exact Bool.false_ne_true),
    if_pos (by rw [hsh, hcf]; simp [truthyFile, hne])]
  rw [hcf]
  simp only [hn, hcf]

theorem processLine_header_bad (st : ParseState) (line : Str)
    (hsh : startsWith (str "@@") line = true)
    (htr : truthyFile st.current_file = true)
    (hn : hunkNewStart? line = none) :
    processLine st line = st := by
  obtain ⟨t, rfl⟩ := startsWith_atat_shape line hsh
  rw [processLine, if_neg (by rw [sw_dg_at]; exact Bool.false_ne_true),
    if_pos (by rw [hsh, htr]; rfl)]
  match hcf : st.current_file with
  | none => rfl
  | some cf => simp only [hn]

theorem processLine_body (st : ParseState) (line k : Str) (i : Nat)
    (h1 : startsWith (str "diff --git") line = false)
    (h2 : (startsWith (str "@@") line && truthyFile st.current_file) = false)
    (hptr : st.current_hunk = some (k, i)) :
    processLine st line =
      { st with files := modifyHunk st.files k i (fun h => classifyLine h line) } := by
  rw [processLine, if_neg (by rw [h1]; exact Bool.false_ne_true),
    if_neg (by rw [h2]; exact Bool.false_ne_true), hptr]

theorem processLine_body_none (st : ParseState) (line : Str)
    (h1 : startsWith (str "diff --git") line = false)
    (h2 : (startsWith (str "@@") line && truthyFile st.current_file) = false)
    (hptr : st.current_hunk = none) :
    processLine st line = st := by
  rw [processLine, if_neg (by rw [h1]; exact Bool.false_ne_true),
    if_neg (by rw [h2]; exact Bool.false_ne_true), hptr]

theorem classifyLine_add (h : Hunk) (s : Str) (hs : startsWith (str "++") s = false) :
    classifyLine h ('+' :: s) = { h with additions := h.additions ++ [s] } := by
  have h1 : startsWith (str "+") ('+' :: s) = true := by simp [startsWith, List.isPrefixOf]
  have h2 : startsWith (str "+++") ('+' :: s) = false := by
    rw [show startsWith (str "+++") ('+' :: s) = startsWith (str "++") s from rfl]
    exact hs
  rw [classifyLine, if_pos (by rw [h1, h2]; rfl)]
  rfl

theorem classifyLine_del (h : Hunk) (s : Str) (hs : startsWith (str "--") s = false) :
    classifyLine h ('-' :: s) = { h with deletions := h.deletions ++ [s] } := by
  have h1 : startsWith (str "-") ('-' :: s) = true := by simp [startsWith, List.isPrefixOf]
  have h2 : startsWith (str "---") ('-' :: s) = false := by
    rw [show startsWith (str "---") ('-' :: s) = startsWith (str "--") s from rfl]
    exact hs
  have h3 : startsWith (str "+") ('-' :: s) = false := rfl
  rw [classifyLine, if_neg (by rw [h3]; simp), if_pos (by rw [h1, h2]; rfl)]
  rfl

theorem classifyLine_ctx (h : Hunk) (s : Str) :
    classifyLine h (' ' :: s) = { h with context := h.context ++ [' ' :: s] } := rfl

/-! ## Characterization of the parser on printed well-formed diffs -/

theorem foldBody (acc : List (Str × List Hunk)) (p : Str) (done : List Hunk)
    (hacc : hasKey acc p = false) :
    ∀ (bs : List BodyLine) (n : Int) (hd : Str) (A D C : List Str),
      bs.all wfBody = true →
      List.foldl processLine
        ⟨acc ++ [(p, done ++ [⟨n, hd, A, D, C⟩])], some p, some (p, done.length)⟩
        (bs.map printBodyLine)
      = ⟨acc ++ [(p, done ++ [⟨n, hd, A ++ hunkAdds bs, D ++ hunkDels bs, C ++ hunkCtxs bs⟩])],
          some p, some (p, done.length)⟩ := by
  intro bs
  induction bs with
  | nil => intro n hd A D C _; simp [hunkAdds, hunkDels, hunkCtxs]
  | cons b bs ih =>
    intro n hd A D C hwf
    simp only [List.all_cons, Bool.and_eq_true] at hwf
    obtain ⟨hb, hbs⟩ := hwf
    simp only [List.map_cons, List.foldl_cons]
    match b with
    | .add s =>
      simp only [wfBody, Bool.and_eq_true] at hb
      rw [show printBodyLine (BodyLine.add s) = '+' :: s from rfl,
        processLine_body _ _ p done.length (sw_dg_plus s)
          (by rw [sw_at_plus]; rfl) rfl]
      simp only [modifyHunk_last acc p _ _ _ hacc, listModify_append_len,
        classifyLine_add _ s (by simpa using hb.1)]
      rw [ih n hd (A ++ [s]) D C hbs]
      simp [hunkAdds, hunkDels, hunkCtxs, List.filterMap_cons]
    | .del s =>
      simp only [wfBody, Bool.and_eq_true] at hb
      rw [show printBodyLine (BodyLine.del s) = '-' :: s from rfl,
        processLine_body _ _ p done.length (sw_dg_minus s)
          (by rw [sw_at_minus]; rfl) rfl]
      simp only [modifyHunk_last acc p _ _ _ hacc, listModify_append_len,
        classifyLine_del _ s (by simpa using hb.1)]
      rw [ih n hd A (D ++ [s]) C hbs]
      simp [hunkAdds, hunkDels, hunkCtxs, List.filterMap_cons]
    | .ctx s =>
      rw [show printBodyLine (BodyLine.ctx s) = ' ' :: s from rfl,
        processLine_body _ _ p done.length (sw_dg_space s)
          (by rw [sw_at_space]; rfl) rfl]
      simp only [modifyHunk_last acc p _ _ _ hacc, listModify_append_len,
        classifyLine_ctx]
      rw [ih n hd A D (C ++ [' ' :: s]) hbs]
      simp [hunkAdds, hunkDels, hunkCtxs, List.filterMap_cons]

theorem foldHunk (acc : List (Str × List Hunk)) (p : Str) (done : List Hunk)
    (ptr0 : Option (Str × Nat)) (g : GHunk) (hwf : wfGHunk g = true)
    (hacc : hasKey acc p = false) (hp : p.isEmpty = false) :
    List.foldl processLine ⟨acc ++ [(p, done)], some p, ptr0⟩ (printGHunk g)
      = ⟨acc ++ [(p, done ++ [expectedHunk g])], some p, some (p, done.length)⟩ := by
  simp only [wfGHunk, Bool.and_eq_true] at hwf
  obtain ⟨⟨⟨hsh, hsome⟩, -⟩, hbody⟩ := hwf
  obtain ⟨n, hn⟩ := Option.isSome_iff_exists.mp hsome
  simp only [printGHunk, List.foldl_cons]
  rw [processLine_header _ _ p n hsh rfl hp hn,
    show appendHunkTo (acc ++ [(p, done)]) p ⟨n, g.header, [], [], []⟩ =
      acc ++ [(p, done ++ [⟨n, g.header, [], [], []⟩])] from appendHunkTo_last acc p done _ hacc,
    show lookupLen (acc ++ [(p, done)]) p = done.length from lookupLen_last acc p done hacc]
  rw [foldBody acc p done hacc g.body n g.header [] [] [] hbody]
  simp only [List.nil_append, expectedHunk, hn, Option.getD_some]

theorem foldHunks (acc : List (Str × List Hunk)) (p : Str)
    (hacc : hasKey acc p = false) (hp : p.isEmpty = false) :
    ∀ (gs : List GHunk) (done : List Hunk) (ptr0 : Option (Str × Nat)),
      gs.all wfGHunk = true →
      ∃ ptr1,
        List.foldl processLine ⟨acc ++ [(p, done)], some p, ptr0⟩
          ((gs.map printGHunk).flatten)
        = ⟨acc ++ [(p, done ++ gs.map expectedHunk)], some p, ptr1⟩ ∧
          (ptr1 = ptr0 ∨ ∃ i, ptr1 = some (p, i)) := by
  intro gs
  induction gs with
  | nil => intro done ptr0 _; exact ⟨ptr0, by simp, Or.inl rfl⟩
  | cons g gs ih =>
    intro done ptr0 hwf
    simp only [List.all_cons, Bool.and_eq_true] at hwf
    obtain ⟨hg, hgs⟩ := hwf
    simp only [List.map_cons, List.flatten_cons, List.foldl_append]
    rw [foldHunk acc p done ptr0 g hg hacc hp]
    obtain ⟨ptr1, heq, hprop⟩ := ih (done ++ [expectedHunk g]) (some (p, done.length)) hgs
    refine ⟨ptr1, ?_, ?_⟩
    · rw [heq]
      simp
    · match hprop with
      | Or.inl h => exact Or.inr ⟨done.length, h⟩
      | Or.inr h => exact Or.inr h

theorem killPtr_eq (ptr0 : Option (Str × Nat)) (pth : Str) :
    (∀ k i, ptr0 = some (k, i) → k ≠ pth) →
    (match ptr0 with
      | some (k, i) => if k = pth then none else some (k, i)
      | none => none) = ptr0 := by
  match ptr0 with
  | none => exact fun _ => rfl
  | some (k, i) =>
    intro h
    simp [h k i rfl]

theorem foldFile (acc : List (Str × List Hunk)) (cf0 : Option Str)
    (ptr0 : Option (Str × Nat)) (f : GFile) (hwf : wfGFile f = true)
    (hacc : hasKey acc f.path = false)
    (hptr : ∀ k i, ptr0 = some (k, i) → hasKey acc k = true) :
    ∃ ptr1,
      List.foldl processLine ⟨acc, cf0, ptr0⟩ (printGFile f)
        = ⟨acc ++ [(f.path, f.hunks.map expectedHunk)], some f.path, ptr1⟩ ∧
        (∀ k i, ptr1 = some (k, i) →
          hasKey (acc ++ [(f.path, f.hunks.map expectedHunk)]) k = true) := by
  simp only [wfGFile, Bool.and_eq_true] at hwf
  obtain ⟨⟨⟨hne, -⟩, hnb⟩, hhunks⟩ := hwf
  have hnb' : containsB f.path = false := by simpa using hnb
  have hne' : f.path.isEmpty = false := by simpa using hne
  have hshape : str "diff --git a/" ++ f.path ++ str " b/" ++ f.path =
      (str "diff --git a/" ++ f.path) ++ ' ' :: 'b' :: '/' :: f.path := by
    simp only [List.append_assoc]
    rfl
  have hsplit := splitB_last_occ (str "diff --git a/" ++ f.path) f.path hnb'
  have hstep : processLine ⟨acc, cf0, ptr0⟩
      (str "diff --git a/" ++ f.path ++ str " b/" ++ f.path)
      = ⟨acc ++ [(f.path, [])], some f.path, ptr0⟩ := by
    rw [processLine_marker _ _ f.path (sw_marker4 f.path f.path)
      (by rw [hshape]; exact hsplit.1) (by rw [hshape]; exact hsplit.2),
      registerFile_fresh acc f.path hacc]
    simp only [ParseState.mk.injEq]
    refine ⟨trivial, trivial, killPtr_eq ptr0 f.path ?_⟩
    intro k i hk hkp
    have hkk := hptr k i hk
    rw [hkp, hacc] at hkk
    exact Bool.false_ne_true hkk
  simp only [printGFile, List.foldl_cons]
  rw [hstep]
  obtain ⟨ptr1, heq, hprop⟩ := foldHunks acc f.path hacc hne' f.hunks [] ptr0 hhunks
  refine ⟨ptr1, by rw [heq]; simp, ?_⟩
  intro k i hk
  rw [hasKey_append]
  match hprop with
  | Or.inl h =>
    rw [h] at hk
    rw [hptr k i hk]
    rfl
  | Or.inr ⟨j, hj⟩ =>
    rw [hj] at hk
    cases hk
    have : hasKey [(f.path, f.hunks.map expectedHunk)] f.path = true := by
      simp [hasKey]
    rw [this]
    simp

theorem foldDiff :
    ∀ (ds : List GFile) (acc : List (Str × List Hunk)) (cf0 : Option Str)
      (ptr0 : Option (Str × Nat)),
      ds.all wfGFile = true →
      (∀ f ∈ ds, hasKey acc f.path = false) →
      (ds.map (·.path)).Nodup →
      (∀ k i, ptr0 = some (k, i) → hasKey acc k = true) →
      ∃ cf1 ptr1,
        List.foldl processLine ⟨acc, cf0, ptr0⟩ (printDiff ds)
          = ⟨acc ++ expectedFiles ds, cf1, ptr1⟩ := by
  intro ds
  induction ds with
  | nil => intro acc cf0 ptr0 _ _ _ _; exact ⟨cf0, ptr0, by simp [printDiff, expectedFiles]⟩
  | cons f ds ih =>
    intro acc cf0 ptr0 hwf hfresh hnodup hptr
    simp only [List.all_cons, Bool.and_eq_true] at hwf
    obtain ⟨hf, hds⟩ := hwf
    simp only [printDiff, List.map_cons, List.flatten_cons, List.foldl_append]
    obtain ⟨ptr1, heq, hprop⟩ := foldFile acc cf0 ptr0 f hf (hfresh f (by simp)) hptr
    rw [heq]
    simp only [List.map_cons, List.nodup_cons] at hnodup
    have hfresh' : ∀ g ∈ ds, hasKey (acc ++ [(f.path, f.hunks.map expectedHunk)]) g.path = false := by
      intro g hg
      rw [hasKey_append, hfresh g (by simp [hg])]
      have hne : g.path ≠ f.path := by
        intro hgp
        exact hnodup.1 (by rw [← hgp]; exact List.mem_map_of_mem _ hg)
      have : hasKey [(f.path, f.hunks.map expectedHunk)] g.path = false := by
        simp only [hasKey, List.any_cons, List.any_nil, Bool.or_false]
        simpa using fun h => hne h.symm
      rw [this]
      rfl
    obtain ⟨cf2, ptr2, heq2⟩ := ih (acc ++ [(f.path, f.hunks.map expectedHunk)])
      (some f.path) ptr1 hds hfresh' hnodup.2 hprop
    rw [show printDiff ds = (ds.map printGFile).flatten from rfl] at heq2
    rw [heq2]
    exact ⟨cf2, ptr2, by simp [expectedFiles, List.append_assoc]⟩

theorem noNl_of_contains_false (s : Str) (h : (s.contains '\n') = false) :
    ∀ c ∈ s, (c == '\n') = false := by
  intro c hcs
  have : c ≠ '\n' := by
    intro hceq
    subst hceq
    simp at h
    exact h hcs
  simpa using this

theorem noNl_printDiff (d : List GFile) (hwf : d.all wfGFile = true) :
    ∀ l ∈ printDiff d, ∀ c ∈ l, (c == '\n') = false := by
  intro l hl c hc
  simp only [printDiff, List.mem_flatten, List.mem_map] at hl
  obtain ⟨block, ⟨f, hf, rfl⟩, hlf⟩ := hl
  have hwff : wfGFile f = true := by
    rw [List.all_eq_true] at hwf
    exact hwf f hf
  simp only [wfGFile, Bool.and_eq_true] at hwff
  obtain ⟨⟨⟨-, hnl⟩, -⟩, hhunks⟩ := hwff
  have hpath : ∀ c ∈ f.path, (c == '\n') = false :=
    noNl_of_contains_false f.path (by simpa using hnl)
  simp only [printGFile, List.mem_cons] at hlf
  rcases hlf with rfl | hrest
  · simp only [List.append_assoc, List.mem_append] at hc
    rcases hc with h | h | h | h
    · revert h; revert c; decide
    · exact hpath c h
    · revert h; revert c; decide
    · exact hpath c h
  · simp only [List.mem_flatten, List.mem_map] at hrest
    obtain ⟨block2, ⟨g, hg, rfl⟩, hlg⟩ := hrest
    have hwfg : wfGHunk g = true := by
      rw [List.all_eq_true] at hhunks
      exact hhunks g hg
    simp only [wfGHunk, Bool.and_eq_true] at hwfg
    obtain ⟨⟨-, hghnl⟩, hgbody⟩ := hwfg
    simp only [printGHunk, List.mem_cons] at hlg
    rcases hlg with rfl | hb
    · exact noNl_of_contains_false g.header (by simpa using hghnl) c hc
    · simp only [List.mem_map] at hb
      obtain ⟨b, hbmem, rfl⟩ := hb
      have hwfb : wfBody b = true := by
        rw [List.all_eq_true] at hgbody
        exact hgbody b hbmem
      match b with
      | .add s =>
        simp only [wfBody, Bool.and_eq_true] at hwfb
        simp only [printBodyLine, List.mem_cons] at hc
        rcases hc with rfl | hcs
        · decide
        · exact noNl_of_contains_false s (by simpa using hwfb.2) c hcs
      | .del s =>
        simp only [wfBody, Bool.and_eq_true] at hwfb
        simp only [printBodyLine, List.mem_cons] at hc
        rcases hc with rfl | hcs
        · decide
        · exact noNl_of_contains_false s (by simpa using hwfb.2) c hcs
      | .ctx s =>
        simp only [wfBody] at hwfb
        simp only [printBodyLine, List.mem_cons] at hc
        rcases hc with rfl | hcs
        · decide
        · exact noNl_of_contains_false s (by simpa using hwfb) c hcs

theorem printDiff_ne_nil (f : GFile) (ds : List GFile) : printDiff (f :: ds) ≠ [] := by
  simp [printDiff, printGFile]

/-- The full characterization: parsing the rendered text of a
well-formed abstract diff yields exactly its per-file, per-hunk
structure with per-class line sequences. -/
theorem parse_printDiff (d : List GFile) (hwf : wfDiff d = true) :
    parse_diff_to_files (renderLines (printDiff d)) = expectedFiles d := by
  simp only [wfDiff, Bool.and_eq_true, decide_eq_true_eq] at hwf
  obtain ⟨hall, hnodup⟩ := hwf
  match d with
  | [] => decide
  | f :: ds =>
    rw [parse_diff_to_files,
      splitNl_renderLines _ (printDiff_ne_nil f ds) (noNl_printDiff _ hall)]
    obtain ⟨cf1, ptr1, heq⟩ := foldDiff (f :: ds) [] none none hall
      (by intro g hg; rfl) hnodup (by intro k i h; cases h)
    rw [parseLines, initState, heq]
    simp

/-! ## Totality: the exception-tracking scan never escapes with an error -/

theorem hunkNewStartExc_ok (line : Str) (n : Int) (h : hunkNewStart? line = some n) :
    hunkNewStartExc line = .ok n := by
  rw [hunkNewStart?] at h
  rw [hunkNewStartExc]
  match hs : splitAtAt line with
  | [] => rw [hs] at h; cases h
  | [a] => rw [hs] at h; cases h
  | a :: b :: rest =>
    rw [hs] at h
    simp only at h ⊢
    rw [h]

theorem hunkNewStartExc_err (line : Str) (h : hunkNewStart? line = none) :
    ∃ e, hunkNewStartExc line = .error e ∧ (e = .valueError ∨ e = .indexError) := by
  rw [hunkNewStart?] at h
  rw [hunkNewStartExc]
  match hs : splitAtAt line with
  | [] => exact ⟨.indexError, rfl, Or.inr rfl⟩
  | [a] => exact ⟨.indexError, rfl, Or.inr rfl⟩
  | a :: b :: rest =>
    rw [hs] at h
    simp only at h ⊢
    rw [h]
    exact ⟨.valueError, rfl, Or.inl rfl⟩

theorem hasKey_registerFile_self (fs : List (Str × List Hunk)) (k : Str) :
    hasKey (registerFile fs k) k = true := by
  rw [registerFile]
  split
  · rename_i h
    rw [hasKey, List.any_map, List.any_eq_true]
    obtain ⟨p, hp, hpk⟩ := (hasKey_iff fs k).mp h
    exact ⟨p, hp, by simp [Function.comp, hpk]⟩
  · rw [hasKey_append]
    have : hasKey [(k, [])] k = true := by simp [hasKey]
    rw [this]
    simp

theorem anyCongr {α : Type} {l : List α} {p q : α → Bool}
    (h : ∀ a ∈ l, p a = q a) : l.any p = l.any q := by
  induction l with
  | nil => rfl
  | cons a as ih =>
    simp only [List.any_cons, h a (by simp), ih (fun x hx => h x (by simp [hx]))]

theorem hasKey_appendHunkTo (fs : List (Str × List Hunk)) (k' : Str) (h : Hunk) (f : Str) :
    hasKey (appendHunkTo fs k' h) f = hasKey fs f := by
  rw [hasKey, hasKey, appendHunkTo, List.any_map]
  apply anyCongr
  intro p hp
  simp only [Function.comp]
  split <;> rfl

theorem hasKey_modifyHunk (fs : List (Str × List Hunk)) (k' : Str) (i : Nat)
    (g : Hunk → Hunk) (f : Str) : hasKey (modifyHunk fs k' i g) f = hasKey fs f := by
  rw [hasKey, hasKey, modifyHunk, List.any_map]
  apply anyCongr
  intro p hp
  simp only [Function.comp]
  split <;> rfl

theorem InvCF_processLine (st : ParseState) (line : Str) (hInv : InvCF st) :
    InvCF (processLine st line) := by
  by_cases h1 : startsWith (str "diff --git") line = true
  · by_cases h2 : 2 ≤ (splitB line).length
    · rw [processLine, if_pos h1, if_pos h2]
      intro f hf
      simp only [Option.some.injEq] at hf
      subst hf
      exact hasKey_registerFile_self _ _
    · rw [processLine, if_pos h1, if_neg h2]
      exact hInv
  · by_cases h2 : (startsWith (str "@@") line && truthyFile st.current_file) = true
    · match hcf : st.current_file with
      | none =>
        rw [processLine, if_neg h1, if_pos h2, hcf]
        exact hInv
      | some cf =>
        match hn : hunkNewStart? line with
        | some n =>
          rw [processLine, if_neg h1, if_pos h2, hcf]
          simp only [hn]
          intro f hf
          simp only [Option.some.injEq] at hf
          subst hf
          exact (hasKey_appendHunkTo st.files cf ⟨n, line, [], [], []⟩ cf).trans (hInv cf hcf)
        | none =>
          rw [processLine, if_neg h1, if_pos h2, hcf]
          simp only [hn]
          exact hInv
    · match hp : st.current_hunk with
      | some (k, i) =>
        rw [processLine, if_neg h1, if_neg h2, hp]
        intro f hf
        simp only at hf
        exact (hasKey_modifyHunk st.files k i _ f).trans (hInv f hf)
      | none =>
        rw [processLine, if_neg h1, if_neg h2, hp]
        exact hInv

theorem processLineExc_ok (st : ParseState) (line : Str) (hInv : InvCF st) :
    processLineExc st line = .ok (processLine st line) := by
  by_cases h1 : startsWith (str "diff --git") line = true
  · rw [processLineExc, if_pos h1]
  · by_cases h2 : (startsWith (str "@@") line && truthyFile st.current_file) = true
    · match hcf : st.current_file with
      | none =>
        rw [processLineExc, if_neg h1, if_pos h2, hcf, processLine, if_neg h1, if_pos h2, hcf]
      | some cf =>
        match hn : hunkNewStart? line with
        | some n =>
          rw [processLineExc, if_neg h1, if_pos h2, hcf, processLine, if_neg h1, if_pos h2, hcf]
          simp only [hunkNewStartExc_ok line n hn, hn, if_pos (hInv cf hcf)]
        | none =>
          obtain ⟨e, he, hor⟩ := hunkNewStartExc_err line hn
          rw [processLineExc, if_neg h1, if_pos h2, hcf, processLine, if_neg h1, if_pos h2, hcf]
          simp only [he, hn]
          rcases hor with rfl | rfl <;> rfl
    · rw [processLineExc, if_neg h1, if_neg h2]

theorem foldExc_ok (ls : List Str) :
    ∀ (st : ParseState), InvCF st →
      foldExc st ls = .ok (ls.foldl processLine st) := by
  induction ls with
  | nil => intro st _; rfl
  | cons l ls ih =>
    intro st hInv
    rw [foldExc, processLineExc_ok st l hInv]
    exact ih (processLine st l) (InvCF_processLine st l hInv)

theorem parse_exc_ok (s : Str) :
    parse_diff_to_files_exc s = .ok (parse_diff_to_files s) := by
  rw [parse_diff_to_files_exc, parse_diff_to_files, parseLines,
    show (initState : ParseState) = ⟨[], none, none⟩ from rfl,
    foldExc_ok _ ⟨[], none, none⟩ (by intro f hf; cases hf)]
  rfl

/-! ## Aggregation lemmas -/

theorem foldl_filter_append (keep : BBComment → Bool) (recf : BBComment → CommentRecord) :
    ∀ (cs : List BBComment) (acc : List CommentRecord),
      cs.foldl (fun acc2 c => if keep c then acc2 ++ [recf c] else acc2) acc
        = acc ++ (cs.filter keep).map recf := by
  intro cs
  induction cs with
  | nil => intro acc; simp
  | cons c cs ih =>
    intro acc
    simp only [List.foldl_cons, List.filter_cons]
    by_cases hc : keep c = true
    · rw [if_pos hc, if_pos hc, ih]
      simp
    · rw [if_neg hc, if_neg hc, ih]

theorem export_records_foldl (commentsOf : Nat → List BBComment)
    (workspace repo_slug : String) (aid : Option String) :
    ∀ (prs : List BBPr) (acc : List CommentRecord),
      prs.foldl
        (fun acc pr =>
          (commentsOf pr.id).foldl
            (fun acc2 c =>
              if keepComment aid c then acc2 ++ [toRecord workspace repo_slug pr c]
              else acc2)
            acc)
        acc
      = acc ++ prs.flatMap (fun pr =>
          ((commentsOf pr.id).filter (keepComment aid)).map (toRecord workspace repo_slug pr)) := by
  intro prs
  induction prs with
  | nil => intro acc; simp
  | cons pr prs ih =>
    intro acc
    simp only [List.foldl_cons]
    rw [foldl_filter_append (keepComment aid) (toRecord workspace repo_slug pr)
      (commentsOf pr.id) acc, ih]
    simp [List.flatMap_cons, List.append_assoc]

/-! ## Claim C1 -/

/-- C1 counterexample: the claim says that on reaching `diff --git
a/b.py b/b.py` the current-hunk state is cleared, so the following
`index 1..2` line is discarded and no hunk of `a.py` is mutated.  In
fact the scan appends `index 1..2` to the context of `a.py`'s hunk:
the hunk of the earlier file is mutated after the file boundary. -/
theorem C1_counterexample_file_boundary_mutation :
    parse_diff_to_files
      (str "diff --git a/a.py b/a.py\n@@ -1,1 +1,1 @@\n+x\ndiff --git a/b.py b/b.py\nindex 1..2\n@@ -1,1 +1,1 @@\n+y") =
      [(str "a.py", [⟨1, str "@@ -1,1 +1,1 @@", [str "x"], [], [str "index 1..2"]⟩]),
       (str "b.py", [⟨1, str "@@ -1,1 +1,1 @@", [str "y"], [], []⟩])] := by
  decide

/-- C1 amended: a file marker does not clear the current-hunk state.
After a marker for a path `p` different from the current hunk's file
`k`, the pointer still designates hunk `i` of `k`, and a following
non-marker line is appended (per its classification) to that hunk of
the earlier file; such lines are discarded only when no hunk is
current.  (When `p = k`, re-registration orphans the aliased hunk
object, and later mutations of it are invisible in the output.) -/
theorem C1_amended_current_hunk_survives_marker (st : ParseState) (k p : Str) (i : Nat)
    (bodyLine : Str)
    (hptr : st.current_hunk = some (k, i)) (hkp : k ≠ p) (hp : containsB p = false)
    (hb1 : startsWith (str "diff --git") bodyLine = false)
    (hb2 : startsWith (str "@@") bodyLine = false) :
    (processLine st (str "diff --git a/" ++ p ++ str " b/" ++ p)).current_hunk = some (k, i) ∧
    processLine (processLine st (str "diff --git a/" ++ p ++ str " b/" ++ p)) bodyLine =
      { processLine st (str "diff --git a/" ++ p ++ str " b/" ++ p) with
          files := modifyHunk (processLine st (str "diff --git a/" ++ p ++ str " b/" ++ p)).files
            k i (fun h => classifyLine h bodyLine) } := by
  have hshape : str "diff --git a/" ++ p ++ str " b/" ++ p =
      (str "diff --git a/" ++ p) ++ ' ' :: 'b' :: '/' :: p := by
    simp only [List.append_assoc]
    rfl
  have hsplit := splitB_last_occ (str "diff --git a/" ++ p) p hp
  have hm := processLine_marker st _ p (sw_marker4 p p)
    (by rw [hshape]; exact hsplit.1) (by rw [hshape]; exact hsplit.2)
  have hcur : (processLine st (str "diff --git a/" ++ p ++ str " b/" ++ p)).current_hunk
      = some (k, i) := by
    rw [hm]
    simp only [hptr]
    simp [hkp]
  exact ⟨hcur, processLine_body _ bodyLine k i hb1 (by rw [hb2]; rfl) hcur⟩

/-- C1 amended, witnessed at a concrete state and lines. -/
theorem C1_amended_witness :
    (processLine ⟨[(str "a.py", [⟨1, str "@@ -1,1 +1,1 @@", [], [], []⟩])],
        some (str "a.py"), some (str "a.py", 0)⟩
      (str "diff --git a/" ++ str "b.py" ++ str " b/" ++ str "b.py")).current_hunk
      = some (str "a.py", 0) ∧
    processLine (processLine ⟨[(str "a.py", [⟨1, str "@@ -1,1 +1,1 @@", [], [], []⟩])],
        some (str "a.py"), some (str "a.py", 0)⟩
      (str "diff --git a/" ++ str "b.py" ++ str " b/" ++ str "b.py")) (str "index 1..2") =
      { processLine ⟨[(str "a.py", [⟨1, str "@@ -1,1 +1,1 @@", [], [], []⟩])],
          some (str "a.py"), some (str "a.py", 0)⟩
          (str "diff --git a/" ++ str "b.py" ++ str " b/" ++ str "b.py") with
          files := modifyHunk (processLine ⟨[(str "a.py", [⟨1, str "@@ -1,1 +1,1 @@", [], [], []⟩])],
            some (str "a.py"), some (str "a.py", 0)⟩
            (str "diff --git a/" ++ str "b.py" ++ str " b/" ++ str "b.py")).files
            (str "a.py") 0 (fun h => classifyLine h (str "index 1..2")) } :=
  C1_amended_current_hunk_survives_marker
    ⟨[(str "a.py", [⟨1, str "@@ -1,1 +1,1 @@", [], [], []⟩])],
      some (str "a.py"), some (str "a.py", 0)⟩
    (str "a.py") (str "b.py") 0 (str "index 1..2")
    rfl (by decide) (by decide) (by decide) (by decide)

/-! ## Claim C2 -/

/-- C2 counterexample: the claim says a hunk marker with missing range
tokens adds no hunk.  Parsing a bare `@@` marker in fact adds a hunk
with `start_line = 0` (the fallback `"+0"` parses), and the following
body line is attributed to it. -/
theorem C2_counterexample_missing_tokens_add_hunk :
    parse_diff_to_files (str "diff --git a/x b/x\n@@\n+q") =
      [(str "x", [⟨0, str "@@", [str "q"], [], []⟩])] := by
  decide

/-- C2 amended: only a hunk marker whose new-file start token does not
parse as an integer is skipped; the skip leaves the whole scan state —
including the previous current-hunk pointer — unchanged, so following
body lines go to the previous hunk when one is current and are
discarded otherwise; a marker with missing range tokens is not skipped
but yields a hunk with start 0.  A diff whose first hunk header has a
non-integer start followed by a well-formed hunk yields only the
well-formed hunk. -/
theorem C2_amended_lenient_skip :
    (∀ (st : ParseState) (line : Str),
      startsWith (str "@@") line = true →
      truthyFile st.current_file = true →
      hunkNewStart? line = none →
      processLine st line = st) ∧
    parse_diff_to_files (str "diff --git a/x b/x\n@@ -1,2 +Z,3 @@\n+zzz\n@@ -4,1 +5,1 @@\n+w")
      = [(str "x", [⟨5, str "@@ -4,1 +5,1 @@", [str "w"], [], []⟩])] ∧
    parse_diff_to_files (str "diff --git a/x b/x\n@@ -1,1 +1,1 @@\n+a\n@@ -2,1 +Z,1 @@\n+b")
      = [(str "x", [⟨1, str "@@ -1,1 +1,1 @@", [str "a", str "b"], [], []⟩])] :=
  ⟨fun st line h1 h2 h3 => processLine_header_bad st line h1 h2 h3,
   by decide, by decide⟩

/-- C2 amended, witnessed: a non-integer start header leaves a concrete
state unchanged. -/
theorem C2_amended_witness :
    processLine ⟨[(str "x", [])], some (str "x"), none⟩ (str "@@ -1,2 +Z,3 @@")
      = ⟨[(str "x", [])], some (str "x"), none⟩ :=
  C2_amended_lenient_skip.1 ⟨[(str "x", [])], some (str "x"), none⟩
    (str "@@ -1,2 +Z,3 @@") (by decide) (by decide) (by decide)

/-! ## Claim C3 -/

/-- C3 counterexample: the exact input of the claim does not parse to
the claimed value — the context line is kept verbatim (with its
leading space), and the trailing newline contributes an empty context
line. -/
theorem C3_counterexample_context_not_stripped :
    parse_diff_to_files (str "diff --git a/x.py b/x.py\n@@ -1,2 +1,3 @@\n line1\n+line2\n-oldline\n")
      ≠ [(str "x.py",
          [⟨1, str "@@ -1,2 +1,3 @@", [str "line2"], [str "oldline"], [str "line1"]⟩])] := by
  decide

/-- C3 amended: the example input parses to one file `x.py` with one
hunk with startLine 1, additions `["line2"]`, deletions `["oldline"]`,
and context `[" line1", ""]` — the context line verbatim including its
leading space, plus the empty line produced by the trailing newline. -/
theorem C3_amended_example_parse :
    parse_diff_to_files (str "diff --git a/x.py b/x.py\n@@ -1,2 +1,3 @@\n line1\n+line2\n-oldline\n")
      = [(str "x.py",
          [⟨1, str "@@ -1,2 +1,3 @@", [str "line2"], [str "oldline"], [str " line1", str ""]⟩])] := by
  decide

/-! ## Claim C4 -/

theorem hunkCtxs_eq_map (b : List BodyLine) :
    hunkCtxs b = (hunkCtxRaw b).map (fun s => ' ' :: s) := by
  induction b with
  | nil => rfl
  | cons x bs ih =>
    match x with
    | .add s => simpa [hunkCtxs, hunkCtxRaw, List.filterMap_cons] using ih
    | .del s => simpa [hunkCtxs, hunkCtxRaw, List.filterMap_cons] using ih
    | .ctx s => simpa [hunkCtxs, hunkCtxRaw, List.filterMap_cons] using ih

theorem grouped_print (b : List BodyLine) (hg : grouped b = true) :
    b.map printBodyLine = (hunkAdds b).map (fun s => '+' :: s)
      ++ (hunkDels b).map (fun s => '-' :: s) ++ hunkCtxs b := by
  rw [grouped, decide_eq_true_eq] at hg
  conv_lhs => rw [hg]
  rw [hunkCtxs_eq_map]
  simp only [List.map_append, List.map_map]
  rfl

/-- C4 counterexample: two distinct well-formed unified diffs whose
single hunks interleave the same context and addition lines in a
different order parse to the same value, so no reconstruction from the
parse output can reproduce both hunks' original byte content. -/
theorem C4_counterexample_parse_not_injective :
    parse_diff_to_files (str "diff --git a/x b/x\n@@ -1,1 +1,2 @@\n c\n+a") =
      parse_diff_to_files (str "diff --git a/x b/x\n@@ -1,1 +1,2 @@\n+a\n c") ∧
    str "diff --git a/x b/x\n@@ -1,1 +1,2 @@\n c\n+a" ≠
      str "diff --git a/x b/x\n@@ -1,1 +1,2 @@\n+a\n c" := by
  constructor
  · decide
  · decide

/-- C4 amended: the parser preserves, per hunk, the header and each
class's lines in original order (additions and deletions with the
prefix stripped, context verbatim), but loses the interleaving across
classes; the hunk's byte content is reproduced by reconstruction
(header, then `+`-additions, `-`-deletions, context) exactly when the
hunk body groups its additions, deletions and context contiguously in
that order. -/
theorem C4_amended_grouped_reconstruction (d : List GFile)
    (hwf : wfDiff d = true) (hg : groupedHunks d = true) :
    (parse_diff_to_files (renderLines (printDiff d))).map (fun e => e.2.map reconstructHunk)
      = d.map (fun f => f.hunks.map printGHunk) := by
  rw [parse_printDiff d hwf, expectedFiles, List.map_map]
  apply List.map_congr_left
  intro f hf
  simp only [Function.comp]
  rw [List.map_map]
  apply List.map_congr_left
  intro g hgm
  simp only [Function.comp]
  have hgr : grouped g.body = true := by
    rw [groupedHunks, List.all_eq_true] at hg
    have := hg f hf
    rw [List.all_eq_true] at this
    exact this g hgm
  show reconstructHunk (expectedHunk g) = printGHunk g
  rw [reconstructHunk, expectedHunk, printGHunk]
  simp only
  rw [grouped_print g.body hgr]

/-- C4 amended, witnessed on a concrete grouped diff. -/
theorem C4_amended_witness :
    (parse_diff_to_files (renderLines (printDiff
        [⟨str "x.py", [⟨str "@@ -1,2 +3,4 @@",
          [.add (str "a1"), .add (str "a2"), .del (str "d1"), .ctx (str "c1")]⟩]⟩]))).map
      (fun e => e.2.map reconstructHunk)
      = ([⟨str "x.py", [⟨str "@@ -1,2 +3,4 @@",
          [.add (str "a1"), .add (str "a2"), .del (str "d1"), .ctx (str "c1")]⟩]⟩] :
            List GFile).map
        (fun f => f.hunks.map printGHunk) :=
  C4_amended_grouped_reconstruction
    [⟨str "x.py", [⟨str "@@ -1,2 +3,4 @@",
      [.add (str "a1"), .add (str "a2"), .del (str "d1"), .ctx (str "c1")]⟩]⟩]
    (by decide) (by decide)

/-! ## Claim C5 -/

/-- C5 counterexample: with a repeated file path the scan resets the
path's hunk list in place, so the hunk of the first `x` section
(additions `["a"]`) is absent from the output — the hunks appearing
under `x` in the input are not all listed.  The claim quantifies over
every input diff text, including this one. -/
theorem C5_counterexample_repeated_path :
    parse_diff_to_files
      (str "diff --git a/x b/x\n@@ -1,1 +1,1 @@\n+a\ndiff --git a/x b/x\n@@ -2,1 +2,1 @@\n+b") =
      [(str "x", [⟨2, str "@@ -2,1 +2,1 @@", [str "b"], [], []⟩])] := by
  decide

/-- C5 amended: for every well-formed diff whose file markers carry
pairwise distinct paths — in particular for all permutations of
interleaved file sections and hunks — the output lists the file paths
in exactly their order of appearance, and under each path exactly its
hunks in order, never merged or split; when a path repeats, the later
section keeps the path's first position but replaces its hunks. -/
theorem C5_amended_order_preserved (d : List GFile) (hwf : wfDiff d = true) :
    parse_diff_to_files (renderLines (printDiff d)) = expectedFiles d ∧
    (parse_diff_to_files (renderLines (printDiff d))).map Prod.fst = d.map (fun f => f.path) := by
  refine ⟨parse_printDiff d hwf, ?_⟩
  rw [parse_printDiff d hwf, expectedFiles, List.map_map]
  rfl

/-- C5 amended, witnessed on a concrete two-file, three-hunk diff. -/
theorem C5_amended_witness :
    parse_diff_to_files (renderLines (printDiff
      [⟨str "b.py", [⟨str "@@ -1,1 +10,2 @@", [.add (str "x"), .ctx (str "c")]⟩,
                     ⟨str "@@ -5,1 +20,1 @@", [.del (str "y")]⟩]⟩,
       ⟨str "a.py", [⟨str "@@ -2,2 +2,2 @@", [.ctx (str "k")]⟩]⟩]))
      = expectedFiles
        [⟨str "b.py", [⟨str "@@ -1,1 +10,2 @@", [.add (str "x"), .ctx (str "c")]⟩,
                       ⟨str "@@ -5,1 +20,1 @@", [.del (str "y")]⟩]⟩,
         ⟨str "a.py", [⟨str "@@ -2,2 +2,2 @@", [.ctx (str "k")]⟩]⟩] ∧
    (parse_diff_to_files (renderLines (printDiff
      [⟨str "b.py", [⟨str "@@ -1,1 +10,2 @@", [.add (str "x"), .ctx (str "c")]⟩,
                     ⟨str "@@ -5,1 +20,1 @@", [.del (str "y")]⟩]⟩,
       ⟨str "a.py", [⟨str "@@ -2,2 +2,2 @@", [.ctx (str "k")]⟩]⟩]))).map Prod.fst
      = ([⟨str "b.py", [⟨str "@@ -1,1 +10,2 @@", [.add (str "x"), .ctx (str "c")]⟩,
                       ⟨str "@@ -5,1 +20,1 @@", [.del (str "y")]⟩]⟩,
         ⟨str "a.py", [⟨str "@@ -2,2 +2,2 @@", [.ctx (str "k")]⟩]⟩] : List GFile).map
           (fun f => f.path) :=
  C5_amended_order_preserved
    [⟨str "b.py", [⟨str "@@ -1,1 +10,2 @@", [.add (str "x"), .ctx (str "c")]⟩,
                   ⟨str "@@ -5,1 +20,1 @@", [.del (str "y")]⟩]⟩,
     ⟨str "a.py", [⟨str "@@ -2,2 +2,2 @@", [.ctx (str "k")]⟩]⟩]
    (by decide)

/-! ## Claim C6 -/

/-- C6 counterexample: on a detached HEAD, `git branch --show-current`
succeeds (exit code 0) and prints nothing, so `get_current_branch`
returns `some ""` — the stripped empty stdout — not none as the claim
states.  (Callers test the result for Python truthiness, so the empty
string behaves like an absent value downstream, but the function does
not return None.) -/
theorem C6_counterexample_detached_head :
    get_current_branch detachedHeadResult = some "" ∧
    get_current_branch detachedHeadResult ≠ none := by
  constructor
  · decide
  · decide

/-- C6 amended: `get_repo_root` and `get_current_branch` return none
exactly when their git command exits non-zero (cwd outside any
repository); whenever the command succeeds — including the
detached-HEAD case, where stdout is empty — they return the stripped
stdout, so detached HEAD yields `some ""`, not none. -/
theorem C6_amended_locator_spec :
    (∀ r : ProcessResult, get_repo_root r = none ↔ ¬ r.returncode = 0) ∧
    (∀ r : ProcessResult, get_current_branch r = none ↔ ¬ r.returncode = 0) ∧
    (∀ r : ProcessResult, r.returncode = 0 → get_current_branch r = some (stripStr r.stdout)) ∧
    (∀ r : ProcessResult, r.returncode = 0 → get_repo_root r = some (stripStr r.stdout)) := by
  refine ⟨fun r => ?_, fun r => ?_, fun r h => ?_, fun r h => ?_⟩
  · by_cases h : r.returncode = 0 <;> simp [get_repo_root, h]
  · by_cases h : r.returncode = 0 <;> simp [get_current_branch, h]
  · simp [get_current_branch, h]
  · simp [get_repo_root, h]

/-- C6 amended, witnessed: a successful command with stdout
`"main\n"` yields the branch name `"main"`. -/
theorem C6_amended_witness :
    get_current_branch ⟨"main\n", "", 0⟩ = some "main" :=
  (C6_amended_locator_spec.2.2.1 ⟨"main\n", "", 0⟩ rfl).trans (by decide)

/-! ## Claim C7 -/

/-- C7 counterexample: HTTP 501 is a 5xx status, but it is not in the
configured forcelist `[429, 500, 502, 503, 504]`, so a page answering
501 and then ready to succeed is not retried: the fetch surfaces the
HTTP error immediately instead of retrying to eventual success as the
claim states for every 5xx. -/
theorem C7_counterexample_501_not_retried :
    fetchAll server501 5 "u1" = .error (.httpStatus 501) ∧
    server501 "u1" 1 = ⟨200, ⟨[7], none⟩⟩ := by
  constructor
  · simp [fetchAll, fetch_paginated, sessionGet, sessionGetAux, server501, forcelist, urlTruthy]
  · decide

/-- C7 amended: for transient failures with a status in the configured
forcelist (429, 500, 502, 503, 504 — not every 5xx), the page request
is retried with exponentially increasing backoff up to 3 retries; on
eventual success `fetchAll` returns the values of all pages
concatenated in page order; an exhausted budget surfaces the transport
error and never yields a partial result.  Against a 3-page listing
whose page 2 answers 503 twice and then succeeds, all items of all
three pages are returned in order, with exactly 2 retries before the
successful attempt. -/
theorem C7_amended_retry_spec :
    (∀ vs1 vs2 vs3 : List Nat,
      fetchAll (threePageServer vs1 vs2 vs3) 5 "p1" = .ok (vs1 ++ vs2 ++ vs3)) ∧
    (∀ vs1 vs2 vs3 : List Nat,
      sessionGet (threePageServer vs1 vs2 vs3 "p2") = .ok (⟨vs2, some "p3"⟩, 2)) ∧
    delaysFor 2 = [1, 2] ∧
    (∀ k, 1 ≤ k → backoffDelay k < backoffDelay (k + 1)) ∧
    fetchAll failingServer 5 "p1" = .error (.retriesExceeded 503) := by
  refine ⟨fun vs1 vs2 vs3 => ?_, fun vs1 vs2 vs3 => ?_, by decide, fun k hk => ?_, ?_⟩
  · simp [fetchAll, fetch_paginated, sessionGet, sessionGetAux, threePageServer, forcelist,
      urlTruthy]
  · simp [sessionGet, sessionGetAux, threePageServer, forcelist]
  · rw [backoffDelay, backoffDelay]
    have : k - 1 < k + 1 - 1 := by omega
    exact Nat.pow_lt_pow_right (by norm_num) this
  · simp [fetchAll, fetch_paginated, sessionGet, sessionGetAux, failingServer, forcelist,
      urlTruthy]

/-- C7 amended, witnessed: the backoff before the second retry exceeds
the backoff before the first. -/
theorem C7_amended_witness : backoffDelay 1 < backoffDelay 2 :=
  C7_amended_retry_spec.2.2.2.1 1 (by decide)

/-! ## Claim C8 -/

/-- C8: with an author filter set (a nonempty account id), the export
loop produces exactly the records of the comments whose (defaulted)
author id equals the filter, ordered by PR listing order and then by
within-PR comment order — the flat-map of the per-PR filtered,
flattened comment lists. -/
theorem C8_author_filter_order (prs : List BBPr) (commentsOf : Nat → List BBComment)
    (workspace repo_slug : String) (a : String) (ha : ¬ a = "") :
    export_comments_records prs commentsOf workspace repo_slug (some a)
      = prs.flatMap (fun pr =>
          ((commentsOf pr.id).filter (fun c => c.user_account_id.getD "" == a)).map
            (toRecord workspace repo_slug pr)) := by
  rw [export_comments_records, export_records_foldl]
  have hkeep : keepComment (some a) = fun c => c.user_account_id.getD "" == a := by
    funext c
    rw [keepComment]
    simp [ha]
  rw [hkeep]
  simp

/-- C8, witnessed: one PR with five comments of which exactly two are
by `"me"` exports exactly those two records, in comment order. -/
theorem C8_witness :
    export_comments_records [⟨7, "Add parser"⟩]
      (fun _ =>
        [⟨some "me", some 1, some "nit", some "a.py", some 3, some "t1", some "t1"⟩,
         ⟨some "bob", some 2, some "ok", none, none, some "t2", some "t2"⟩,
         ⟨some "me", some 3, some "typo", some "b.py", some 9, some "t3", some "t3"⟩,
         ⟨none, some 4, some "anon", none, none, some "t4", some "t4"⟩,
         ⟨some "eve", some 5, some "hm", none, none, some "t5", some "t5"⟩])
      "w" "r" (some "me")
      = [⟨7, "Add parser", "https://bitbucket.org/w/r/pull-requests/7", some 1, "nit",
            "a.py", some 3, "t1", "t1"⟩,
         ⟨7, "Add parser", "https://bitbucket.org/w/r/pull-requests/7", some 3, "typo",
            "b.py", some 9, "t3", "t3"⟩] :=
  (C8_author_filter_order [⟨7, "Add parser"⟩]
      (fun _ =>
        [⟨some "me", some 1, some "nit", some "a.py", some 3, some "t1", some "t1"⟩,
         ⟨some "bob", some 2, some "ok", none, none, some "t2", some "t2"⟩,
         ⟨some "me", some 3, some "typo", some "b.py", some 9, some "t3", some "t3"⟩,
         ⟨none, some 4, some "anon", none, none, some "t4", some "t4"⟩,
         ⟨some "eve", some 5, some "hm", none, none, some "t5", some "t5"⟩])
      "w" "r" "me" (by decide)).trans (by decide)

/-! ## Claim C9 -/

/-- C9: the scan is total over arbitrary input text: running the
exception-explicit variant — in which the header computation can raise
ValueError or IndexError (both caught) and the dict subscript can
raise KeyError (never triggered, since the current file is always a
registered key) — always returns `ok` with the value of the plain
parse, for every input string. -/
theorem C9_parse_total (s : Str) :
    parse_diff_to_files_exc s = Except.ok (parse_diff_to_files s) :=
  parse_exc_ok s

/-! ## Claim C10 -/

/-- C10: on a `diff --git` line, the registered path is the substring
after the last occurrence of `" b/"` (the text `t` with the line of
the form `u ++ " b/" ++ t` and no `" b/"` inside `t`); when the line
contains no `" b/"` at all, the scan state is left entirely unchanged,
so the previous current file and current hunk remain in effect. -/
theorem C10_path_extraction :
    (∀ (st : ParseState) (u t : Str),
      startsWith (str "diff --git") (u ++ ' ' :: 'b' :: '/' :: t) = true →
      containsB t = false →
      (processLine st (u ++ ' ' :: 'b' :: '/' :: t)).current_file = some t ∧
      (processLine st (u ++ ' ' :: 'b' :: '/' :: t)).files = registerFile st.files t) ∧
    (∀ (st : ParseState) (line : Str),
      startsWith (str "diff --git") line = true →
      containsB line = false →
      processLine st line = st) := by
  constructor
  · intro st u t hsw ht
    have hsplit := splitB_last_occ u t ht
    rw [processLine_marker st _ t hsw hsplit.1 hsplit.2]
    exact ⟨rfl, rfl⟩
  · intro st line hsw hline
    apply processLine_marker_noB st line hsw
    rw [splitB_no_occ line hline]
    simp

/-- C10, witnessed: a path containing `" b/"` is truncated to its final
segment — the marker `diff --git a/we b/ird.py b/we b/ird.py`
registers `ird.py`. -/
theorem C10_witness :
    (processLine ⟨[], none, none⟩
        (str "diff --git a/we b/ird.py b/we" ++ ' ' :: 'b' :: '/' :: str "ird.py")).current_file
      = some (str "ird.py") ∧
    (processLine ⟨[], none, none⟩
        (str "diff --git a/we b/ird.py b/we" ++ ' ' :: 'b' :: '/' :: str "ird.py")).files
      = registerFile [] (str "ird.py") :=
  C10_path_extraction.1 ⟨[], none, none⟩ (str "diff --git a/we b/ird.py b/we")
    (str "ird.py") (by decide) (by decide)

end CodeReviewer
